import Mathlib

/-!
# Verification of the beat-timeline and render-pipeline core

A shallow embedding, in Lean 4, of the algorithmic core of the video
composer: the WAV sample quantization (`audioBufferToWav`), the export
progress reporting (`renderVideoToBlob` / `renderFrame`), the cover-crop
geometry for the A-roll band, and the beat timeline model with its
split / merge / analyze operations (`handleSplitBeat`,
`handleMergeBeats`, `handleAnalyzeBeats`).

Conventions of the embedding:
* JavaScript numbers are modelled as rationals (`ℚ`);
* JavaScript strings holding narration text are modelled as `List Char`;
* the bitwise `| 0` is modelled as truncation toward zero followed by
  wrap-around into the signed 32-bit range;
* `Date.now()` is passed in as an explicit `now : ℕ` parameter.
-/

namespace RemixerBeats

/-! ## Definitions: the shallow embedding of the source -/

/-- Truncation of a rational toward zero, the numeric effect of
JavaScript `| 0` on an in-range value. -/
def ratTrunc (q : ℚ) : ℤ := if q < 0 then ⌈q⌉ else ⌊q⌋

/-- Wrap-around of an integer into the signed 32-bit range, the
remaining effect of JavaScript `| 0`. -/
def toInt32 (n : ℤ) : ℤ := (n + 2 ^ 31) % 2 ^ 32 - 2 ^ 31

/-- One sample's quantization in `audioBufferToWav`:
`sample = Math.max(-1, Math.min(1, channels[i][pos]))` followed by
`sample = (0.5 + sample < 0 ? sample * 32768 : sample * 32767) | 0`.
Note the parse of the condition: it is `(0.5 + sample) < 0`. -/
def quantizeSample (s : ℚ) : ℤ :=
  let sample := max (-1) (min 1 s)
  toInt32 (ratTrunc (if 0.5 + sample < 0 then sample * 32768 else sample * 32767))

/-- Per-frame progress report from `renderFrame`: reported only when
`video.duration > 0`, as `Math.min(0.99, currentTime / duration)`. -/
def reportedProgress (duration currentTime : ℚ) : Option ℚ :=
  if 0 < duration then some (min (99 / 100) (currentTime / duration)) else none

/-- The sequence of progress values reported during encoding, one frame
per entry of `ts` (the successive values of `video.currentTime`). -/
def encodingReports (duration : ℚ) (ts : List ℚ) : List ℚ :=
  ts.filterMap (reportedProgress duration)

/-- The full trace of an export that reaches its natural end: the
encoding reports followed by the exact `1` issued by the `onended`
handler. -/
def exportReports (duration : ℚ) (ts : List ℚ) : List ℚ :=
  encodingReports duration ts ++ [1]

/-- A source crop rectangle, in source-video pixel coordinates. -/
structure CropRect where
  sX : ℚ
  sY : ℚ
  sW : ℚ
  sH : ℚ
deriving DecidableEq, Repr

/-- The source-crop computation for the A-roll band in SPLIT mode, from
`renderVideoToBlob`: object-fit cover semantics with a vertical pan
percentage `aRollOffsetY`. -/
def coverCrop (videoWidth videoHeight targetW targetH aRollOffsetY : ℚ) : CropRect :=
  let videoRatio := videoWidth / videoHeight
  let targetRatio := targetW / targetH
  if videoRatio > targetRatio then
    let sH := videoHeight
    let sW := sH * targetRatio
    { sX := (videoWidth - sW) / 2, sY := 0, sW := sW, sH := sH }
  else
    let sW := videoWidth
    let sH := sW / targetRatio
    { sX := 0, sY := (videoHeight - sH) * (aRollOffsetY / 100), sW := sW, sH := sH }

/-- The `OverlayType` enum. -/
inductive OverlayType where
  | full
  | split
deriving DecidableEq, Repr

/-- The `BRollSettings` record; `aRollOffsetY` is optional in the
source. -/
structure BRollSettings where
  x : ℚ
  y : ℚ
  scale : ℚ
  height : ℚ
  aRollOffsetY : Option ℚ
deriving DecidableEq, Repr

/-- The `BeatStyleConfig` record of optional per-beat style overrides. -/
structure BeatStyleConfig where
  themePrompt : Option String
  imageCount : Option ℕ
  referenceImage : Option String
  avatarImage : Option String
deriving DecidableEq, Repr

/-- The `Beat` record. Narration text (`textSegment`, `visualPrompt`)
is modelled as a character list. -/
structure Beat where
  id : String
  startTime : ℚ
  endTime : ℚ
  textSegment : List Char
  visualPrompt : List Char
  bRollImage : Option String
  overlayType : OverlayType
  isEnabled : Bool
  bRollSettings : BRollSettings
  bRollOptions : Option (List String)
  styleConfig : Option BeatStyleConfig
deriving DecidableEq, Repr

/-- JavaScript `String.prototype.trim`: strip whitespace from both ends. -/
def jsTrim (l : List Char) : List Char :=
  (l.dropWhile Char.isWhitespace).rdropWhile Char.isWhitespace

/-- JavaScript `String.prototype.split` with separator a single space, keeping
empty segments (`"".split(' ')` is `[""]`). -/
def splitOnSpace : List Char → List (List Char)
  | [] => [[]]
  | c :: cs =>
    if c = ' ' then [] :: splitOnSpace cs
    else
      match splitOnSpace cs with
      | [] => [[c]]
      | w :: ws => (c :: w) :: ws

/-- The text parts computed by `handleSplitBeat`: `substring(0, startIdx)`,
`substring(startIdx, endIdx)`, `substring(endIdx)`, each paired with its
length; empty leading/trailing parts are dropped, the middle part is
always kept. -/
def splitParts (text : List Char) (startIdx endIdx : ℕ) : List (List Char × ℕ) :=
  let len1 := startIdx
  let len3 := text.length - endIdx
  (if 0 < len1 then [(text.take startIdx, len1)] else []) ++
    [((text.drop startIdx).take (endIdx - startIdx), endIdx - startIdx)] ++
    (if 0 < len3 then [(text.drop endIdx, len3)] else [])

/-- The constant prompt suffix appended to each split part's text. -/
def promptSuffix : List Char :=
  [',', ' ', 'p', 'h', 'o', 't', 'o', 'r', 'e', 'a', 'l', 'i', 's', 't', 'i', 'c', ',', ' ',
    '4', 'k', ',', ' ', 'b', '-', 'r', 'o', 'l', 'l', ',', ' ',
    'c', 'i', 'n', 'e', 'm', 'a', 't', 'i', 'c', ' ', 'l', 'i', 'g', 'h', 't', 'i', 'n', 'g']

/-- The fresh-id scheme `beat-${Date.now()}-${i}` with `Date.now()`
passed in as `now`. -/
def freshSplitId (now i : ℕ) : String :=
  "beat-" ++ toString now ++ "-" ++ toString i

/-- The beat-construction loop of `handleSplitBeat`: walks the kept
parts accumulating `currentStartTime`, giving each part the duration
`(part.len / totalLength) * totalDuration` and the reset visual
configuration. -/
def buildSplitBeats (originalBeat : Beat) (now totalLength : ℕ) (totalDuration : ℚ) :
    ℕ → ℚ → List (List Char × ℕ) → List Beat
  | _, _, [] => []
  | i, currentStartTime, part :: rest =>
    let partDuration := (part.2 : ℚ) / (totalLength : ℚ) * totalDuration
    { id := freshSplitId now i
      startTime := currentStartTime
      endTime := currentStartTime + partDuration
      textSegment := jsTrim part.1
      visualPrompt := jsTrim part.1 ++ promptSuffix
      bRollImage := none
      overlayType := originalBeat.overlayType
      isEnabled := true
      bRollSettings := { x := 0, y := 0, scale := 1, height := 50, aRollOffsetY := some 50 }
      bRollOptions := some []
      styleConfig := originalBeat.styleConfig } ::
      buildSplitBeats originalBeat now totalLength totalDuration (i + 1)
        (currentStartTime + partDuration) rest

/-- The new beats a successful split produces for `originalBeat`. -/
def splitBeatCore (originalBeat : Beat) (startIdx endIdx now : ℕ) : List Beat :=
  buildSplitBeats originalBeat now originalBeat.textSegment.length
    (originalBeat.endTime - originalBeat.startTime) 0 originalBeat.startTime
    (splitParts originalBeat.textSegment startIdx endIdx)

/-- The handler `handleSplitBeat`: locate the beat by id, validate the offsets
(offsets are naturals here, so the source's `startIdx < 0` test cannot
fire), and splice the new beats in place of the original. -/
def handleSplitBeat (beats : List Beat) (beatId : String) (startIdx endIdx now : ℕ) :
    List Beat :=
  match beats.findIdx? fun b => b.id == beatId with
  | none => beats
  | some beatIndex =>
    match beats[beatIndex]? with
    | none => beats
    | some originalBeat =>
      if endIdx > originalBeat.textSegment.length ∨ startIdx ≥ endIdx then beats
      else
        beats.take beatIndex ++ splitBeatCore originalBeat startIdx endIdx now ++
          beats.drop (beatIndex + 1)

/-- The 10-second beat of the spec's split scenario. -/
def scenarioBeat : Beat :=
  { id := "b1", startTime := 0, endTime := 10,
    textSegment := ['A', 'B', 'C', 'D', 'E', 'F', 'G', 'H', 'I', 'J'],
    visualPrompt := [], bRollImage := none, overlayType := OverlayType.full,
    isEnabled := true,
    bRollSettings := { x := 0, y := 0, scale := 1, height := 50, aRollOffsetY := some 50 },
    bRollOptions := some [], styleConfig := none }

/-- A disabled beat with non-default settings, to exercise the reset a
split performs. -/
def disabledBeat : Beat :=
  { id := "d1", startTime := 0, endTime := 10, textSegment := ['X', 'Y'],
    visualPrompt := [], bRollImage := some "img", overlayType := OverlayType.split,
    isEnabled := false,
    bRollSettings := { x := 5, y := -10, scale := 2, height := 70, aRollOffsetY := some 20 },
    bRollOptions := some ["img"], styleConfig := none }

/-- A beat whose text has a space at the split boundary. -/
def wsBeat : Beat :=
  { id := "w1", startTime := 0, endTime := 12,
    textSegment := ['A', 'B', ' ', 'C', 'D', 'E'],
    visualPrompt := [], bRollImage := none, overlayType := OverlayType.full,
    isEnabled := true,
    bRollSettings := { x := 0, y := 0, scale := 1, height := 50, aRollOffsetY := some 50 },
    bRollOptions := some [], styleConfig := none }

/-- The first child beat of splitting `disabledBeat` at offsets (1, 2). -/
def splitChildX : Beat :=
  { id := freshSplitId 0 0, startTime := 0, endTime := 5, textSegment := ['X'],
    visualPrompt := ['X'] ++ promptSuffix, bRollImage := none,
    overlayType := OverlayType.split, isEnabled := true,
    bRollSettings := { x := 0, y := 0, scale := 1, height := 50, aRollOffsetY := some 50 },
    bRollOptions := some [], styleConfig := none }

/-- The JavaScript `.sort((a, b) => a.startTime - b.startTime)`,
modelled as a stable sort by `startTime`. -/
def sortByStartTime (l : List Beat) : List Beat :=
  l.insertionSort fun a b => a.startTime ≤ b.startTime

/-- JavaScript `Array.from(new Set(xs))`: deduplication keeping the first
occurrence of each element, in encounter order. -/
def jsDedup (l : List String) : List String :=
  l.foldl (fun acc x => if x ∈ acc then acc else acc ++ [x]) []

/-- Construction of the merged beat from the sorted selection
`firstBeat :: rest`: spans from the first beat's `startTime` to the
last beat's `endTime`, joins the texts with spaces, takes the visual
identity of the first beat, and unions the galleries with the first
beat's active image prepended when missing. -/
def mergedBeatOf (now : ℕ) (firstBeat : Beat) (rest : List Beat) : Beat :=
  let sorted := firstBeat :: rest
  let lastBeat := sorted.getLast (List.cons_ne_nil _ _)
  let mergedText := List.intercalate [' '] (sorted.map Beat.textSegment)
  let allImages := jsDedup (sorted.flatMap fun b => b.bRollOptions.getD [])
  let allImages2 :=
    match firstBeat.bRollImage with
    | some img => if img ∈ allImages then allImages else img :: allImages
    | none => allImages
  { id := "beat-merged-" ++ toString now
    startTime := firstBeat.startTime
    endTime := lastBeat.endTime
    textSegment := mergedText
    visualPrompt := firstBeat.visualPrompt
    bRollImage := firstBeat.bRollImage
    overlayType := firstBeat.overlayType
    isEnabled := firstBeat.isEnabled
    bRollSettings := firstBeat.bRollSettings
    bRollOptions := some allImages2
    styleConfig := firstBeat.styleConfig }

/-- The handler `handleMergeBeats`: select the beats whose ids are listed, return
the list unchanged when fewer than two match, otherwise sort the
selection by `startTime`, build the merged beat and re-sort the
remaining beats together with it. -/
def handleMergeBeats (beats : List Beat) (beatIds : List String) (now : ℕ) : List Beat :=
  let selectedBeats := beats.filter fun b => beatIds.contains b.id
  if selectedBeats.length < 2 then beats
  else
    match sortByStartTime selectedBeats with
    | [] => beats
    | firstBeat :: rest =>
      let mergedBeat := mergedBeatOf now firstBeat rest
      let remainingBeats := beats.filter fun b => !beatIds.contains b.id
      sortByStartTime (remainingBeats ++ [mergedBeat])

/-- The time-assignment loop of `handleAnalyzeBeats`: each beat gets
duration `Math.max(2, wordCount / 2.5)` where `wordCount` is
`textSegment.split(' ').length`, with a running start time. -/
def assignBeatTimes : ℚ → List Beat → List Beat
  | _, [] => []
  | currentT, beat :: rest =>
    let wordCount := (splitOnSpace beat.textSegment).length
    let dur := max 2 ((wordCount : ℚ) / 2.5)
    { beat with startTime := currentT, endTime := currentT + dur } ::
      assignBeatTimes (currentT + dur) rest

/-- The full time assignment, starting the running sum at 0. -/
def handleAnalyzeBeatsTimes (beats : List Beat) : List Beat :=
  assignBeatTimes 0 beats

/-- A valid beat list: every beat has `startTime < endTime` and each
beat's `endTime` equals the next beat's `startTime`. This implies the
intervals are contiguous, non-overlapping and ordered by `startTime`
ascending. -/
def isChain : List Beat → Bool
  | [] => true
  | [b] => decide (b.startTime < b.endTime)
  | a :: b :: rest =>
    decide (a.startTime < a.endTime) && decide (a.endTime = b.startTime) && isChain (b :: rest)

/-- Contiguity alone: each beat's `endTime` equals the next beat's
`startTime`. -/
def contiguousTimes : List Beat → Bool
  | [] => true
  | [_] => true
  | a :: b :: rest => decide (a.endTime = b.startTime) && contiguousTimes (b :: rest)

/-- The per-beat duration of `handleAnalyzeBeats`:
`Math.max(2, wordCount / 2.5)` with
`wordCount = textSegment.split(' ').length`. -/
def analyzeDur (beat : Beat) : ℚ :=
  max 2 (((splitOnSpace beat.textSegment).length : ℚ) / 2.5)

/-- The first (and only) beat `handleAnalyzeBeats` produces from the
scenario beat's text. -/
def analyzedScenarioBeat : Beat :=
  { scenarioBeat with startTime := 0, endTime := 0 + analyzeDur scenarioBeat }

/-- The gluing condition between two adjacent list segments: the last
beat of `xs` (when any) ends where the first beat of `ys` (when any)
starts. -/
def linkOk (xs ys : List Beat) : Prop :=
  ∀ a b, xs.getLast? = some a → ys.head? = some b → a.endTime = b.startTime

instance : IsTotal Beat fun a b => a.startTime ≤ b.startTime :=
  ⟨fun a b => le_total a.startTime b.startTime⟩

instance : IsTrans Beat fun a b => a.startTime ≤ b.startTime :=
  ⟨fun _ _ _ h₁ h₂ => le_trans h₁ h₂⟩

/-- A default settings record shared by the example beats. -/
def exSettings : BRollSettings :=
  { x := 0, y := 0, scale := 1, height := 50, aRollOffsetY := some 50 }

/-- Beat "a" spanning seconds 0 to 1. -/
def exA : Beat :=
  { id := "a", startTime := 0, endTime := 1, textSegment := ['a'], visualPrompt := [],
    bRollImage := none, overlayType := OverlayType.full, isEnabled := true,
    bRollSettings := exSettings, bRollOptions := some [], styleConfig := none }

/-- Beat "b" spanning seconds 1 to 2. -/
def exB : Beat :=
  { id := "b", startTime := 1, endTime := 2, textSegment := ['b'], visualPrompt := [],
    bRollImage := none, overlayType := OverlayType.full, isEnabled := true,
    bRollSettings := exSettings, bRollOptions := some [], styleConfig := none }

/-- Beat "c" spanning seconds 2 to 3. -/
def exC : Beat :=
  { id := "c", startTime := 2, endTime := 3, textSegment := ['c'], visualPrompt := [],
    bRollImage := none, overlayType := OverlayType.full, isEnabled := true,
    bRollSettings := exSettings, bRollOptions := some [], styleConfig := none }

/-! ## Theorems -/

theorem toInt32_eq_self {n : ℤ} (h1 : -(2 ^ 31) ≤ n) (h2 : n < 2 ^ 31) : toInt32 n = n := by
  unfold toInt32
  omega

theorem ratTrunc_le {q : ℚ} {n : ℤ} (h : q ≤ (n : ℚ)) : ratTrunc q ≤ n := by
  unfold ratTrunc
  split
  · exact Int.ceil_le.mpr h
  · have h1 : ((⌊q⌋ : ℤ) : ℚ) ≤ (n : ℚ) := le_trans (Int.floor_le q) h
    exact_mod_cast h1

theorem le_ratTrunc {q : ℚ} {n : ℤ} (h : (n : ℚ) ≤ q) : n ≤ ratTrunc q := by
  unfold ratTrunc
  split
  · have h1 : (n : ℚ) ≤ ((⌈q⌉ : ℤ) : ℚ) := le_trans h (Int.le_ceil q)
    exact_mod_cast h1
  · exact Int.le_floor.mpr h

/-- C4: cover-crop with vertical pan. When `sw/sh ≤ tw/th` the crop
keeps the full source width, has height `sw / (tw/th)`, and vertical
offset `(sh - croppedHeight) * (p/100)`; when `sw/sh > tw/th` it keeps
the full height with width `sh * (tw/th)`, centered horizontally.
Concretely, for a 1920x1080 source into a 1080x600 target area the
vertical offset is 0 at `p = 0`, equals `sourceHeight - croppedHeight`
at `p = 100`, and is the midpoint of those two at `p = 50`. -/
theorem coverCrop_spec :
    (∀ sw sh tw th p : ℚ, sw / sh ≤ tw / th →
      coverCrop sw sh tw th p =
        { sX := 0, sY := (sh - sw / (tw / th)) * (p / 100), sW := sw, sH := sw / (tw / th) }) ∧
    (∀ sw sh tw th p : ℚ, tw / th < sw / sh →
      coverCrop sw sh tw th p =
        { sX := (sw - sh * (tw / th)) / 2, sY := 0, sW := sh * (tw / th), sH := sh }) ∧
    ((coverCrop 1920 1080 1080 600 0).sY = 0 ∧
      (coverCrop 1920 1080 1080 600 100).sY = 1080 - (coverCrop 1920 1080 1080 600 100).sH ∧
      (coverCrop 1920 1080 1080 600 50).sY =
        ((coverCrop 1920 1080 1080 600 0).sY + (coverCrop 1920 1080 1080 600 100).sY) / 2) := by
  refine ⟨fun sw sh tw th p h => ?_, fun sw sh tw th p h => ?_, ?_, ?_, ?_⟩
  · unfold coverCrop
    rw [if_neg (not_lt.mpr h)]
  · unfold coverCrop
    rw [if_pos h]
  · norm_num [coverCrop]
  · norm_num [coverCrop]
  · norm_num [coverCrop]

/-- Witness for C4 at the concrete 1920x1080 → 1080x600 instance. -/
theorem coverCrop_spec_witness :
    (1920 : ℚ) / 1080 ≤ 1080 / 600 ∧
      coverCrop 1920 1080 1080 600 0 =
        { sX := 0, sY := (1080 - 1920 / (1080 / 600)) * (0 / 100), sW := 1920,
          sH := 1920 / (1080 / 600) } :=
  ⟨by norm_num, coverCrop_spec.1 1920 1080 1080 600 0 (by norm_num)⟩

/-- Counterexample to C5 as stated: the clamped sample `-1/4` is
negative, yet the code quantizes it with scale 32767 (giving `-8191`),
not with scale 32768 (which would give `-8192`): the parenthesization
of `0.5 + sample < 0` makes the 32768 scale apply only below `-0.5`. -/
theorem quantizeSample_counterexample :
    max (-1) (min 1 (-(1 / 4) : ℚ)) < 0 ∧
      quantizeSample (-(1 / 4)) = -8191 ∧
      ratTrunc (max (-1) (min 1 (-(1 / 4) : ℚ)) * 32768) = -8192 := by
  refine ⟨by norm_num, ?_, ?_⟩
  · have h1 : max (-1) (min 1 (-(1 / 4) : ℚ)) = -(1 / 4) := by norm_num
    unfold quantizeSample
    rw [h1]
    show toInt32 (ratTrunc (if (0.5 : ℚ) + -(1 / 4) < 0 then -(1 / 4) * 32768
      else -(1 / 4) * 32767)) = -8191
    rw [if_neg (by norm_num)]
    have h2 : ratTrunc (-(1 / 4) * 32767) = -8191 := by
      unfold ratTrunc
      rw [if_pos (by norm_num)]
      exact Int.ceil_eq_iff.mpr (by constructor <;> norm_num)
    rw [h2]
    exact toInt32_eq_self (by norm_num) (by norm_num)
  · have h1 : max (-1) (min 1 (-(1 / 4) : ℚ)) = -(1 / 4) := by norm_num
    rw [h1]
    unfold ratTrunc
    rw [if_pos (by norm_num)]
    exact Int.ceil_eq_iff.mpr (by constructor <;> norm_num)

/-- C5 (amended): every sample is clamped to `[-1, 1]`; the clamped
sample is then scaled by 32768 when it is below `-1/2` and by 32767
otherwise, truncated toward zero; the quantized value never overflows
the signed 16-bit range. -/
theorem quantizeSample_amended (s : ℚ) :
    (quantizeSample s =
      if max (-1) (min 1 s) < -(1 / 2) then ratTrunc (max (-1) (min 1 s) * 32768)
      else ratTrunc (max (-1) (min 1 s) * 32767)) ∧
    -32768 ≤ quantizeSample s ∧ quantizeSample s ≤ 32767 := by
  have hlo : -1 ≤ max (-1) (min 1 s) := le_max_left _ _
  have hhi : max (-1) (min 1 s) ≤ 1 := max_le (by norm_num) (min_le_left _ _)
  set c := max (-1) (min 1 s) with hc
  have hcond : ((0.5 : ℚ) + c < 0) ↔ c < -(1 / 2) := by constructor <;> intro h <;> linarith
  have hval : quantizeSample s =
      toInt32 (ratTrunc (if 0.5 + c < 0 then c * 32768 else c * 32767)) := rfl
  by_cases h : c < -(1 / 2)
  · have hbounds : -32768 ≤ ratTrunc (c * 32768) ∧ ratTrunc (c * 32768) ≤ 32767 := by
      constructor
      · exact le_ratTrunc (by push_cast; linarith)
      · exact ratTrunc_le (by push_cast; linarith)
    have hq : quantizeSample s = ratTrunc (c * 32768) := by
      rw [hval, if_pos (hcond.mpr h)]
      exact toInt32_eq_self (by omega) (by omega)
    refine ⟨by rw [hq, if_pos h], by rw [hq]; exact hbounds.1, by rw [hq]; exact hbounds.2⟩
  · have h2 : -(1 / 2) ≤ c := not_lt.mp h
    have hbounds : -32768 ≤ ratTrunc (c * 32767) ∧ ratTrunc (c * 32767) ≤ 32767 := by
      constructor
      · exact le_ratTrunc (by push_cast; linarith)
      · exact ratTrunc_le (by push_cast; linarith)
    have hq : quantizeSample s = ratTrunc (c * 32767) := by
      rw [hval, if_neg (fun hx => h (hcond.mp hx))]
      exact toInt32_eq_self (by omega) (by omega)
    refine ⟨by rw [hq, if_neg h], by rw [hq]; exact hbounds.1, by rw [hq]; exact hbounds.2⟩

/-- C6: progress is reported only when the duration is positive; each
encoding report equals `min(0.99, currentTime/duration)`; for
non-decreasing frame times the full trace (ending in the `onended`
report) is non-decreasing; every encoding report is strictly below 1;
the final reported value is exactly 1. -/
theorem progress_spec (d : ℚ) (ts : List ℚ) :
    (d ≤ 0 → encodingReports d ts = []) ∧
    (0 < d → encodingReports d ts = ts.map fun t => min (99 / 100) (t / d)) ∧
    (∀ r ∈ encodingReports d ts, r < 1) ∧
    (List.Pairwise (· ≤ ·) ts → List.Pairwise (· ≤ ·) (exportReports d ts)) ∧
    (exportReports d ts).getLast? = some 1 := by
  have hneg : d ≤ 0 → encodingReports d ts = [] := by
    intro h
    unfold encodingReports reportedProgress
    simp [List.filterMap_eq_nil_iff, not_lt.mpr h]
  have hpos : 0 < d → encodingReports d ts = ts.map fun t => min (99 / 100) (t / d) := by
    intro h
    unfold encodingReports reportedProgress
    have hfn : (fun currentTime => if 0 < d then some (min (99 / 100) (currentTime / d)) else none) =
        (some ∘ fun t : ℚ => min (99 / 100) (t / d)) := by
      funext t
      simp [if_pos h]
    rw [hfn, List.filterMap_eq_map]
  refine ⟨hneg, hpos, ?_, ?_, ?_⟩
  · intro r hr
    rcases le_or_lt d 0 with h | h
    · rw [hneg h] at hr
      exact absurd hr (List.not_mem_nil r)
    · rw [hpos h] at hr
      obtain ⟨t, _, ht⟩ := List.mem_map.mp hr
      calc r = min (99 / 100) (t / d) := ht.symm
        _ ≤ 99 / 100 := min_le_left _ _
        _ < 1 := by norm_num
  · intro hts
    unfold exportReports
    rw [List.pairwise_append]
    refine ⟨?_, List.pairwise_singleton _ _, ?_⟩
    · rcases le_or_lt d 0 with h | h
      · rw [hneg h]
        exact List.Pairwise.nil
      · rw [hpos h]
        rw [List.pairwise_map]
        exact hts.imp fun hab => min_le_min le_rfl ((div_le_div_iff_of_pos_right h).mpr hab)
    · intro a ha b hb
      rw [List.mem_singleton] at hb
      subst hb
      rcases le_or_lt d 0 with h | h
      · rw [hneg h] at ha
        exact absurd ha (List.not_mem_nil a)
      · rw [hpos h] at ha
        obtain ⟨t, _, ht⟩ := List.mem_map.mp ha
        calc a = min (99 / 100) (t / d) := ht.symm
          _ ≤ 99 / 100 := min_le_left _ _
          _ ≤ 1 := by norm_num
  · unfold exportReports
    exact List.getLast?_concat _

/-- Witness for C6 at duration 2 and frame times `[0, 1]`. -/
theorem progress_spec_witness :
    ((0 : ℚ) < 2 ∧ encodingReports 2 [0, 1] = [0, 1].map fun t => min (99 / 100) (t / 2)) ∧
      (List.Pairwise (· ≤ ·) ([0, 1] : List ℚ) ∧
        List.Pairwise (· ≤ ·) (exportReports 2 [0, 1])) :=
  ⟨⟨by norm_num, (progress_spec 2 [0, 1]).2.1 (by norm_num)⟩,
    ⟨by norm_num, (progress_spec 2 [0, 1]).2.2.2.1 (by norm_num)⟩⟩

theorem buildSplitBeats_map_textSegment (ob : Beat) (now L : ℕ) (D : ℚ)
    (parts : List (List Char × ℕ)) : ∀ (i : ℕ) (t : ℚ),
    (buildSplitBeats ob now L D i t parts).map Beat.textSegment =
      parts.map fun p => jsTrim p.1 := by
  induction parts with
  | nil => intro i t; rfl
  | cons p rest ih =>
    intro i t
    simp only [buildSplitBeats, List.map_cons, ih]

theorem buildSplitBeats_map_duration (ob : Beat) (now L : ℕ) (D : ℚ)
    (parts : List (List Char × ℕ)) : ∀ (i : ℕ) (t : ℚ),
    (buildSplitBeats ob now L D i t parts).map (fun b => b.endTime - b.startTime) =
      parts.map fun p => (p.2 : ℚ) / (L : ℚ) * D := by
  induction parts with
  | nil => intro i t; rfl
  | cons p rest ih =>
    intro i t
    simp only [buildSplitBeats, List.map_cons, ih, List.cons.injEq]
    exact ⟨by ring, trivial⟩

theorem buildSplitBeats_mem (ob : Beat) (now L : ℕ) (D : ℚ)
    (parts : List (List Char × ℕ)) : ∀ (i : ℕ) (t : ℚ) (b : Beat),
    b ∈ buildSplitBeats ob now L D i t parts →
      b.isEnabled = true ∧
        b.bRollSettings = { x := 0, y := 0, scale := 1, height := 50, aRollOffsetY := some 50 } ∧
        b.bRollImage = none ∧ b.bRollOptions = some [] ∧
        b.overlayType = ob.overlayType ∧ b.styleConfig = ob.styleConfig := by
  induction parts with
  | nil => intro i t b hb; simp [buildSplitBeats] at hb
  | cons p rest ih =>
    intro i t b hb
    rw [buildSplitBeats, List.mem_cons] at hb
    rcases hb with hb | hb
    · subst hb
      exact ⟨rfl, rfl, rfl, rfl, rfl, rfl⟩
    · exact ih _ _ b hb

/-- C1: each kept part of a split receives duration
`D * partLength / L`, the parts appearing in text order; the spec's
scenario (a 10-second beat with text of length 10 split at offsets
`(3, 6)`) yields exactly three beats of durations 3, 3, 4 with texts
`"ABC"`, `"DEF"`, `"GHIJ"` in that order. -/
theorem split_proportional_durations :
    (∀ (originalBeat : Beat) (startIdx endIdx now : ℕ),
      0 < originalBeat.textSegment.length → startIdx < endIdx →
      endIdx ≤ originalBeat.textSegment.length →
      (splitBeatCore originalBeat startIdx endIdx now).map (fun b => b.endTime - b.startTime) =
        (splitParts originalBeat.textSegment startIdx endIdx).map fun p =>
          (originalBeat.endTime - originalBeat.startTime) * (p.2 : ℚ) /
            (originalBeat.textSegment.length : ℚ)) ∧
    (handleSplitBeat [scenarioBeat] "b1" 3 6 0).map
        (fun b => (b.textSegment, b.startTime, b.endTime)) =
      [(['A', 'B', 'C'], (0 : ℚ), (3 : ℚ)), (['D', 'E', 'F'], 3, 6),
        (['G', 'H', 'I', 'J'], 6, 10)] ∧
    (handleSplitBeat [scenarioBeat] "b1" 3 6 0).map (fun b => b.endTime - b.startTime) =
      [3, 3, 4] := by
  refine ⟨fun ob s e now _ _ _ => ?_, ?_, ?_⟩
  · rw [splitBeatCore, buildSplitBeats_map_duration]
    exact List.map_congr_left fun p _ => by ring
  · norm_num +decide [handleSplitBeat, splitBeatCore, buildSplitBeats, splitParts, jsTrim,
      scenarioBeat, List.findIdx?_cons, List.rdropWhile, List.dropWhile]
  · norm_num +decide [handleSplitBeat, splitBeatCore, buildSplitBeats, splitParts, jsTrim,
      scenarioBeat, List.findIdx?_cons, List.rdropWhile, List.dropWhile]

/-- Witness for C1 at the spec scenario's beat. -/
theorem split_proportional_durations_witness :
    (0 < scenarioBeat.textSegment.length ∧ 3 < 6 ∧ 6 ≤ scenarioBeat.textSegment.length) ∧
      (splitBeatCore scenarioBeat 3 6 0).map (fun b => b.endTime - b.startTime) =
        (splitParts scenarioBeat.textSegment 3 6).map fun p =>
          (scenarioBeat.endTime - scenarioBeat.startTime) * (p.2 : ℚ) /
            (scenarioBeat.textSegment.length : ℚ) :=
  ⟨⟨by norm_num [scenarioBeat], by norm_num, by norm_num [scenarioBeat]⟩,
    split_proportional_durations.1 scenarioBeat 3 6 0 (by norm_num [scenarioBeat])
      (by norm_num) (by norm_num [scenarioBeat])⟩

/-- C9: every child beat of a split has `isEnabled = true`, the reset
`bRollSettings` `{x := 0, y := 0, scale := 1, height := 50,
aRollOffsetY := 50}`, no image and an empty gallery, regardless of the
original beat's values; only `overlayType` and `styleConfig` are
carried over from the original beat. -/
theorem split_resets_children (beats : List Beat) (beatId : String) (startIdx endIdx now : ℕ) :
    ∀ b ∈ handleSplitBeat beats beatId startIdx endIdx now,
      b ∈ beats ∨
        (b.isEnabled = true ∧
          b.bRollSettings =
            { x := 0, y := 0, scale := 1, height := 50, aRollOffsetY := some 50 } ∧
          b.bRollImage = none ∧ b.bRollOptions = some [] ∧
          ∃ orig ∈ beats, orig.id = beatId ∧
            b.overlayType = orig.overlayType ∧ b.styleConfig = orig.styleConfig) := by
  intro b hb
  unfold handleSplitBeat at hb
  split at hb
  · exact Or.inl hb
  · rename_i beatIndex hfind
    split at hb
    · exact Or.inl hb
    · rename_i originalBeat hget
      split at hb
      · exact Or.inl hb
      · rename_i hguard
        have horig_mem : originalBeat ∈ beats := by
          obtain ⟨hlen, heq⟩ := List.getElem?_eq_some_iff.mp hget
          exact heq ▸ List.getElem_mem hlen
        have horig_id : originalBeat.id = beatId := by
          have hp := List.findIdx?_eq_some_iff_findIdx_eq.mp hfind
          have := List.findIdx?_eq_some_iff_getElem.mp hfind
          obtain ⟨hlt, hpeq, -⟩ := this
          obtain ⟨hlen, hgeq⟩ := List.getElem?_eq_some_iff.mp hget
          have : (beats[beatIndex].id == beatId) = true := hpeq
          rw [hgeq] at this
          exact eq_of_beq this
        rcases List.mem_append.mp hb with hb1 | hb2
        · rcases List.mem_append.mp hb1 with hb3 | hb4
          · exact Or.inl (List.take_subset _ _ hb3)
          · refine Or.inr ?_
            obtain ⟨h1, h2, h3, h4, h5, h6⟩ :=
              buildSplitBeats_mem originalBeat now _ _ _ _ _ b hb4
            exact ⟨h1, h2, h3, h4, originalBeat, horig_mem, horig_id, h5, h6⟩
        · exact Or.inl (List.drop_subset _ _ hb2)

/-- Witness for C9: the first child of splitting the disabled beat with
non-default settings is enabled and reset. -/
theorem split_resets_children_witness :
    splitChildX ∈ [disabledBeat] ∨
      (splitChildX.isEnabled = true ∧
        splitChildX.bRollSettings =
          { x := 0, y := 0, scale := 1, height := 50, aRollOffsetY := some 50 } ∧
        splitChildX.bRollImage = none ∧ splitChildX.bRollOptions = some [] ∧
        ∃ orig ∈ [disabledBeat], orig.id = "d1" ∧
          splitChildX.overlayType = orig.overlayType ∧
          splitChildX.styleConfig = orig.styleConfig) :=
  split_resets_children [disabledBeat] "d1" 1 2 0 splitChildX
    (by norm_num +decide [handleSplitBeat, splitBeatCore, buildSplitBeats, splitParts, jsTrim,
      disabledBeat, splitChildX, List.findIdx?_cons, List.rdropWhile, List.dropWhile])

/-- C10: each child beat's `textSegment` is the whitespace-trimmed form
of its substring of the original text; consequently for an original
text with whitespace at a split boundary the concatenation of the
children's texts differs from the original text. -/
theorem split_trims_segments :
    (∀ (originalBeat : Beat) (startIdx endIdx now : ℕ),
      (splitBeatCore originalBeat startIdx endIdx now).map Beat.textSegment =
        (splitParts originalBeat.textSegment startIdx endIdx).map fun p => jsTrim p.1) ∧
    (handleSplitBeat [wsBeat] "w1" 2 3 0).map Beat.textSegment =
      [['A', 'B'], [], ['C', 'D', 'E']] ∧
    ((handleSplitBeat [wsBeat] "w1" 2 3 0).map Beat.textSegment).flatten ≠
      wsBeat.textSegment := by
  refine ⟨fun ob s e now => ?_, ?_, ?_⟩
  · rw [splitBeatCore, buildSplitBeats_map_textSegment]
  · norm_num +decide [handleSplitBeat, splitBeatCore, buildSplitBeats, splitParts, jsTrim,
      wsBeat, List.findIdx?_cons, List.rdropWhile, List.dropWhile]
  · norm_num +decide [handleSplitBeat, splitBeatCore, buildSplitBeats, splitParts, jsTrim,
      wsBeat, List.findIdx?_cons, List.rdropWhile, List.dropWhile]

theorem isChain_cons_cons (a b : Beat) (l : List Beat) :
    isChain (a :: b :: l) =
      (decide (a.startTime < a.endTime) && decide (a.endTime = b.startTime) &&
        isChain (b :: l)) := rfl

theorem isChain_cons {x : Beat} {l : List Beat} (hx : x.startTime < x.endTime)
    (hl : isChain l = true)
    (hlink : ∀ b, l.head? = some b → x.endTime = b.startTime) :
    isChain (x :: l) = true := by
  cases l with
  | nil => simpa [isChain] using hx
  | cons y l' =>
    have hxy := hlink y rfl
    rw [isChain_cons_cons, Bool.and_eq_true, Bool.and_eq_true,
      decide_eq_true_iff, decide_eq_true_iff]
    exact ⟨⟨hx, hxy⟩, hl⟩

theorem isChain_cons_elim {x : Beat} {l : List Beat} (h : isChain (x :: l) = true) :
    x.startTime < x.endTime ∧ isChain l = true ∧
      ∀ b, l.head? = some b → x.endTime = b.startTime := by
  cases l with
  | nil =>
    refine ⟨by simpa [isChain] using h, rfl, fun b hb => by simp at hb⟩
  | cons y l' =>
    rw [isChain_cons_cons, Bool.and_eq_true, Bool.and_eq_true,
      decide_eq_true_iff, decide_eq_true_iff] at h
    exact ⟨h.1.1, h.2, fun b hb => by
      rw [List.head?_cons, Option.some.injEq] at hb
      rw [← hb]
      exact h.1.2⟩

theorem contiguousTimes_of_isChain : ∀ {l : List Beat}, isChain l = true →
    contiguousTimes l = true := by
  intro l
  induction l with
  | nil => intro _; rfl
  | cons a l ih =>
    intro h
    obtain ⟨-, hl, hlink⟩ := isChain_cons_elim h
    cases l with
    | nil => rfl
    | cons b l' =>
      show (decide (a.endTime = b.startTime) && contiguousTimes (b :: l')) = true
      rw [Bool.and_eq_true, decide_eq_true_iff]
      exact ⟨hlink b rfl, ih hl⟩

theorem filter_singleton_id_length {x : String} :
    ∀ (l : List Beat), (l.map Beat.id).Nodup →
      (l.filter fun b => b.id == x).length ≤ 1 := by
  intro l
  induction l with
  | nil => intro _; simp
  | cons a l ih =>
    intro hnd
    rw [List.map_cons, List.nodup_cons] at hnd
    rw [List.filter_cons]
    by_cases ha : (a.id == x) = true
    · rw [if_pos ha]
      have hnil : (l.filter fun b => b.id == x) = [] := by
        rw [List.filter_eq_nil_iff]
        intro b hb hbx
        have hab : a.id = b.id := (eq_of_beq ha).trans (eq_of_beq hbx).symm
        exact hnd.1 (hab ▸ List.mem_map_of_mem Beat.id hb)
      rw [hnil]
      simp
    · rw [if_neg ha]
      exact ih hnd.2

/-- C7: merging with ids that match fewer than two existing beats, or
with fewer than two beat ids (given the model invariant that beat ids
are unique), leaves the beat list exactly unchanged; `handleMergeBeats`
is a total function, so no exception can be thrown. -/
theorem merge_too_few_noop (beats : List Beat) (beatIds : List String) (now : ℕ) :
    ((beats.filter fun b => beatIds.contains b.id).length < 2 →
      handleMergeBeats beats beatIds now = beats) ∧
    ((beats.map Beat.id).Nodup → beatIds.length < 2 →
      handleMergeBeats beats beatIds now = beats) := by
  have hshort : (beats.filter fun b => beatIds.contains b.id).length < 2 →
      handleMergeBeats beats beatIds now = beats := by
    intro h
    unfold handleMergeBeats
    rw [if_pos h]
  refine ⟨hshort, fun hnodup hlen => hshort ?_⟩
  match beatIds, hlen with
  | [], _ =>
    simp [List.contains]
  | [x], _ =>
    have hle := filter_singleton_id_length (x := x) beats hnodup
    have heq : (beats.filter fun b => List.contains [x] b.id) =
        beats.filter fun b => b.id == x := by
      apply List.filter_congr
      intro b _
      rw [Bool.eq_iff_iff]
      simp [List.contains]
    rw [heq]
    omega
  | _ :: _ :: _, h => exact absurd h (by simp)

/-- Witness for C7: merging a single-beat match and merging a
singleton id list both leave the list unchanged. -/
theorem merge_too_few_noop_witness :
    (([scenarioBeat].filter fun b => ["b1", "zz"].contains b.id).length < 2 ∧
      handleMergeBeats [scenarioBeat] ["b1", "zz"] 0 = [scenarioBeat]) ∧
    (([scenarioBeat].map Beat.id).Nodup ∧ (["b1"] : List String).length < 2 ∧
      handleMergeBeats [scenarioBeat] ["b1"] 0 = [scenarioBeat]) :=
  ⟨⟨by norm_num +decide [scenarioBeat],
      (merge_too_few_noop [scenarioBeat] ["b1", "zz"] 0).1
        (by norm_num +decide [scenarioBeat])⟩,
    ⟨by norm_num +decide [scenarioBeat], by norm_num,
      (merge_too_few_noop [scenarioBeat] ["b1"] 0).2
        (by norm_num +decide [scenarioBeat]) (by norm_num)⟩⟩

theorem assignBeatTimes_eq (currentT : ℚ) (beat : Beat) (rest : List Beat) :
    assignBeatTimes currentT (beat :: rest) =
      { beat with startTime := currentT, endTime := currentT + analyzeDur beat } ::
        assignBeatTimes (currentT + analyzeDur beat) rest := rfl

theorem assignBeatTimes_props : ∀ (beats : List Beat) (t : ℚ),
    isChain (assignBeatTimes t beats) = true ∧
      ∀ b, (assignBeatTimes t beats).head? = some b → b.startTime = t := by
  intro beats
  induction beats with
  | nil => exact fun t => ⟨rfl, fun b hb => by simp [assignBeatTimes] at hb⟩
  | cons bt rest ih =>
    intro t
    have hdur : (0 : ℚ) < analyzeDur bt := lt_of_lt_of_le (by norm_num) (le_max_left _ _)
    constructor
    · rw [assignBeatTimes_eq]
      apply isChain_cons
      · show t < t + analyzeDur bt
        linarith
      · exact (ih _).1
      · intro b hb
        have hstart := (ih _).2 b hb
        show t + analyzeDur bt = b.startTime
        rw [hstart]
    · intro b hb
      rw [assignBeatTimes_eq, List.head?_cons, Option.some.injEq] at hb
      rw [← hb]

theorem assignBeatTimes_map_duration : ∀ (beats : List Beat) (t : ℚ),
    (assignBeatTimes t beats).map (fun b => b.endTime - b.startTime) =
      beats.map analyzeDur := by
  intro beats
  induction beats with
  | nil => intro t; rfl
  | cons b rest ih =>
    intro t
    rw [assignBeatTimes_eq, List.map_cons, List.map_cons, ih]
    congr 1
    show t + analyzeDur b - t = analyzeDur b
    ring

/-- C8: beats created from text analysis each get duration
`max(2, wordCount / 2.5)` seconds, with `wordCount` the number of
space-separated tokens of the beat's `textSegment`; times are assigned
by a running sum starting at 0, so the first beat starts at 0 and each
subsequent beat starts where the previous one ends. -/
theorem analyze_running_sum (beats : List Beat) :
    ((handleAnalyzeBeatsTimes beats).map (fun b => b.endTime - b.startTime) =
      beats.map fun b => max 2 (((splitOnSpace b.textSegment).length : ℚ) / 2.5)) ∧
    (∀ b, (handleAnalyzeBeatsTimes beats).head? = some b → b.startTime = 0) ∧
    contiguousTimes (handleAnalyzeBeatsTimes beats) = true := by
  refine ⟨assignBeatTimes_map_duration beats 0, (assignBeatTimes_props beats 0).2, ?_⟩
  exact contiguousTimes_of_isChain (assignBeatTimes_props beats 0).1

/-- Witness for C8 on a one-beat list. -/
theorem analyze_running_sum_witness :
    (handleAnalyzeBeatsTimes [scenarioBeat]).head? = some analyzedScenarioBeat ∧
      analyzedScenarioBeat.startTime = 0 :=
  ⟨rfl, (analyze_running_sum [scenarioBeat]).2.1 _ rfl⟩

theorem linkOk_nil_left (ys : List Beat) : linkOk [] ys :=
  fun _ _ h _ => by simp at h

theorem linkOk_nil_right (xs : List Beat) : linkOk xs [] :=
  fun _ _ _ h => by simp at h

theorem linkOk_singleton {a b : Beat} {ys : List Beat} :
    linkOk [a] (b :: ys) ↔ a.endTime = b.startTime := by
  unfold linkOk
  constructor
  · intro h
    exact h a b rfl rfl
  · intro h p q hp hq
    rw [List.getLast?_singleton, Option.some.injEq] at hp
    rw [List.head?_cons, Option.some.injEq] at hq
    rw [← hp, ← hq]
    exact h

theorem linkOk_cons_cons {x y : Beat} {l ys : List Beat} :
    linkOk (x :: y :: l) ys ↔ linkOk (y :: l) ys := by
  unfold linkOk
  rw [List.getLast?_cons_cons]

theorem isChain_singleton (b : Beat) : isChain [b] = decide (b.startTime < b.endTime) := rfl

theorem isChain_append : ∀ (xs ys : List Beat),
    isChain (xs ++ ys) = true ↔
      (isChain xs = true ∧ isChain ys = true ∧ linkOk xs ys) := by
  intro xs
  induction xs with
  | nil =>
    intro ys
    rw [List.nil_append]
    exact ⟨fun h => ⟨rfl, h, linkOk_nil_left ys⟩, fun h => h.2.1⟩
  | cons a xs ih =>
    intro ys
    cases xs with
    | nil =>
      cases ys with
      | nil =>
        rw [List.append_nil]
        exact ⟨fun h => ⟨h, rfl, linkOk_nil_right [a]⟩, fun h => h.1⟩
      | cons b ys' =>
        rw [List.singleton_append, isChain_cons_cons, Bool.and_eq_true, Bool.and_eq_true,
          decide_eq_true_iff, decide_eq_true_iff, isChain_singleton, decide_eq_true_iff,
          linkOk_singleton]
        tauto
    | cons c xs' =>
      rw [List.cons_append, List.cons_append, isChain_cons_cons, ← List.cons_append,
        Bool.and_eq_true, Bool.and_eq_true, decide_eq_true_iff, decide_eq_true_iff, ih,
        isChain_cons_cons, Bool.and_eq_true, Bool.and_eq_true, decide_eq_true_iff,
        decide_eq_true_iff, linkOk_cons_cons]
      tauto

/-- In a valid chain, start times and end times are strictly increasing
along the list. -/
theorem isChain_strict_pairwise : ∀ {l : List Beat}, isChain l = true →
    l.Pairwise fun a b => a.startTime < b.startTime ∧ a.endTime < b.endTime := by
  intro l
  induction l with
  | nil => intro _; exact List.Pairwise.nil
  | cons a l ih =>
    intro h
    obtain ⟨ha, hl, hlink⟩ := isChain_cons_elim h
    rw [List.pairwise_cons]
    refine ⟨?_, ih hl⟩
    intro x hx
    cases l with
    | nil => exact absurd hx (List.not_mem_nil x)
    | cons b l' =>
      have hab : a.endTime = b.startTime := hlink b rfl
      have hb := (isChain_cons_elim hl).1
      rcases List.mem_cons.mp hx with hxb | hxl
      · subst hxb
        exact ⟨by linarith, by linarith⟩
      · have hpw := ih hl
        have hbx := (List.pairwise_cons.mp hpw).1 x hxl
        exact ⟨by linarith [hbx.1], by linarith [hbx.2]⟩

/-- Among beats with strictly increasing end times, every end time is
bounded by the last one. -/
theorem le_getLast_end_of_pairwise : ∀ (l : List Beat) (hne : l ≠ [])
    (hpw : l.Pairwise fun a b => a.endTime < b.endTime) (x : Beat) (hx : x ∈ l),
    x.endTime ≤ (l.getLast hne).endTime := by
  intro l
  induction l with
  | nil => intro hne; exact absurd rfl hne
  | cons a l ih =>
    intro hne hpw x hx
    cases l with
    | nil =>
      rw [List.mem_singleton] at hx
      subst hx
      exact le_rfl
    | cons b l' =>
      rw [List.getLast_cons (List.cons_ne_nil b l')]
      rcases List.mem_cons.mp hx with hxa | hxl
      · subst hxa
        have hab : x.endTime < b.endTime := (List.pairwise_cons.mp hpw).1 b (List.mem_cons_self b l')
        have hb := ih (List.cons_ne_nil b l') (List.pairwise_cons.mp hpw).2 b
          (List.mem_cons_self b l')
        linarith
      · exact ih (List.cons_ne_nil b l') (List.pairwise_cons.mp hpw).2 x hxl

/-- Two lists that are permutations of each other and both strictly
sorted by start time are equal. -/
theorem perm_strict_sorted_eq : ∀ {l₁ l₂ : List Beat}, l₁.Perm l₂ →
    l₁.Pairwise (fun a b => a.startTime < b.startTime) →
    l₂.Pairwise (fun a b => a.startTime < b.startTime) → l₁ = l₂ := by
  intro l₁
  induction l₁ with
  | nil =>
    intro l₂ hp _ _
    exact hp.nil_eq
  | cons a t₁ ih =>
    intro l₂ hp h₁ h₂
    cases l₂ with
    | nil => simpa using hp.length_eq
    | cons b t₂ =>
      have hab : a = b := by
        by_contra hne
        have ha2 : a ∈ b :: t₂ := hp.mem_iff.mp (List.mem_cons_self a t₁)
        have hb1 : b ∈ a :: t₁ := hp.symm.mem_iff.mp (List.mem_cons_self b t₂)
        rcases List.mem_cons.mp ha2 with h | h
        · exact hne h
        · rcases List.mem_cons.mp hb1 with hq | hq
          · exact hne hq.symm
          · have hba : b.startTime < a.startTime := (List.pairwise_cons.mp h₂).1 a h
            have hab2 : a.startTime < b.startTime := (List.pairwise_cons.mp h₁).1 b hq
            exact absurd hba (lt_asymm hab2)
      subst hab
      rw [ih hp.cons_inv (List.pairwise_cons.mp h₁).2 (List.pairwise_cons.mp h₂).2]

theorem sortByStartTime_perm (l : List Beat) : (sortByStartTime l).Perm l :=
  List.perm_insertionSort _ l

theorem sortByStartTime_sorted (l : List Beat) :
    (sortByStartTime l).Pairwise fun a b => a.startTime ≤ b.startTime :=
  List.sorted_insertionSort _ l

theorem sortByStartTime_eq_of_perm_strict {l t : List Beat} (hper : l.Perm t)
    (ht : t.Pairwise fun a b => a.startTime < b.startTime) : sortByStartTime l = t := by
  have hs_perm : (sortByStartTime l).Perm t := (sortByStartTime_perm l).trans hper
  have hne : (sortByStartTime l).Pairwise fun a b => a.startTime ≠ b.startTime :=
    (List.Perm.pairwise_iff (fun h => Ne.symm h) hs_perm).mpr (ht.imp fun h => ne_of_lt h)
  have hstrict : (sortByStartTime l).Pairwise fun a b => a.startTime < b.startTime :=
    ((sortByStartTime_sorted l).and hne).imp fun h => lt_of_le_of_ne h.1 h.2
  exact perm_strict_sorted_eq hs_perm hstrict ht

theorem sortByStartTime_eq_self {l : List Beat}
    (h : l.Pairwise fun a b => a.startTime < b.startTime) : sortByStartTime l = l :=
  sortByStartTime_eq_of_perm_strict (List.Perm.refl l) h

theorem splitParts_ne_nil (text : List Char) (s e : ℕ) : splitParts text s e ≠ [] := by
  unfold splitParts
  intro h
  rcases List.append_eq_nil.mp h with ⟨h1, -⟩
  rcases List.append_eq_nil.mp h1 with ⟨-, h2⟩
  exact List.cons_ne_nil _ _ h2

theorem splitParts_pos (text : List Char) {s e : ℕ} (hse : s < e) :
    ∀ p ∈ splitParts text s e, 0 < p.2 := by
  intro p hp
  unfold splitParts at hp
  rcases List.mem_append.mp hp with h12 | h3
  · rcases List.mem_append.mp h12 with h1 | h2
    · by_cases h0 : 0 < s
      · rw [if_pos h0, List.mem_singleton] at h1
        rw [h1]
        exact h0
      · rw [if_neg h0] at h1
        exact absurd h1 (List.not_mem_nil p)
    · rw [List.mem_singleton] at h2
      rw [h2]
      omega
  · by_cases h0 : 0 < text.length - e
    · rw [if_pos h0, List.mem_singleton] at h3
      rw [h3]
      exact h0
    · rw [if_neg h0] at h3
      exact absurd h3 (List.not_mem_nil p)

theorem splitParts_sum_len (text : List Char) {s e : ℕ} (hse : s < e)
    (he : e ≤ text.length) :
    ((splitParts text s e).map Prod.snd).sum = text.length := by
  unfold splitParts
  by_cases h1 : 0 < s <;> by_cases h3 : 0 < text.length - e <;>
    simp [h1, h3] <;> omega

theorem buildSplitBeats_chain (ob : Beat) (now L : ℕ) (D : ℚ) (hL : 0 < (L : ℚ))
    (hD : 0 < D) :
    ∀ (parts : List (List Char × ℕ)) (i : ℕ) (t : ℚ), parts ≠ [] →
      (∀ p ∈ parts, 0 < p.2) →
      isChain (buildSplitBeats ob now L D i t parts) = true ∧
        (buildSplitBeats ob now L D i t parts).head?.map Beat.startTime = some t ∧
        (buildSplitBeats ob now L D i t parts).getLast?.map Beat.endTime =
          some (t + ((parts.map fun p => ((p.2 : ℚ))).sum / (L : ℚ)) * D) := by
  intro parts
  induction parts with
  | nil => intro i t hne _; exact absurd rfl hne
  | cons p rest ih =>
    intro i t _ hpos
    have hp : (0 : ℚ) < (p.2 : ℚ) := by
      exact_mod_cast hpos p (List.mem_cons_self p rest)
    have hpd : 0 < (p.2 : ℚ) / (L : ℚ) * D := mul_pos (div_pos hp hL) hD
    cases rest with
    | nil =>
      refine ⟨?_, rfl, ?_⟩
      · rw [buildSplitBeats, buildSplitBeats, isChain_singleton, decide_eq_true_iff]
        show t < t + (p.2 : ℚ) / (L : ℚ) * D
        linarith
      · rw [buildSplitBeats, buildSplitBeats]
        simp only [List.getLast?_singleton, Option.map_some', Option.some.injEq,
          List.map_cons, List.map_nil, List.sum_cons, List.sum_nil]
        show t + (p.2 : ℚ) / (L : ℚ) * D = t + (((p.2 : ℚ)) + 0) / (L : ℚ) * D
        ring
    | cons q rest' =>
      obtain ⟨ihchain, ihhead, ihlast⟩ := ih (i + 1) (t + (p.2 : ℚ) / (L : ℚ) * D)
        (List.cons_ne_nil q rest') (fun x hx => hpos x (List.mem_cons_of_mem p hx))
      refine ⟨?_, rfl, ?_⟩
      · rw [buildSplitBeats]
        apply isChain_cons
        · show t < t + (p.2 : ℚ) / (L : ℚ) * D
          linarith
        · exact ihchain
        · intro b hb
          rw [buildSplitBeats, List.head?_cons, Option.some.injEq] at hb
          show t + (p.2 : ℚ) / (L : ℚ) * D = b.startTime
          rw [← hb]
      · rw [buildSplitBeats, buildSplitBeats, List.getLast?_cons_cons]
        rw [buildSplitBeats] at ihlast
        rw [ihlast, Option.some.injEq]
        simp only [List.map_cons, List.sum_cons]
        ring

theorem splitBeatCore_props (ob : Beat) {s e : ℕ} (now : ℕ)
    (hdur : ob.startTime < ob.endTime) (hse : s < e) (he : e ≤ ob.textSegment.length) :
    isChain (splitBeatCore ob s e now) = true ∧
      (splitBeatCore ob s e now).head?.map Beat.startTime = some ob.startTime ∧
      (splitBeatCore ob s e now).getLast?.map Beat.endTime = some ob.endTime := by
  have hLnat : 0 < ob.textSegment.length := by omega
  have hL : 0 < (ob.textSegment.length : ℚ) := by exact_mod_cast hLnat
  have hD : 0 < ob.endTime - ob.startTime := by linarith
  obtain ⟨h1, h2, h3⟩ := buildSplitBeats_chain ob now ob.textSegment.length
    (ob.endTime - ob.startTime) hL hD (splitParts ob.textSegment s e) 0 ob.startTime
    (splitParts_ne_nil _ _ _) (splitParts_pos _ hse)
  refine ⟨h1, h2, ?_⟩
  rw [splitBeatCore, h3, Option.some.injEq]
  have hsum : (((splitParts ob.textSegment s e).map fun p => ((p.2 : ℚ))).sum) =
      (ob.textSegment.length : ℚ) := by
    have hn := splitParts_sum_len ob.textSegment hse he
    have hcast : (((((splitParts ob.textSegment s e).map Prod.snd).sum : ℕ)) : ℚ) =
        (ob.textSegment.length : ℚ) := by exact_mod_cast congrArg (Nat.cast (R := ℚ)) hn
    rw [Nat.cast_list_sum, List.map_map] at hcast
    exact hcast
  rw [hsum, div_self (ne_of_gt hL), one_mul]
  ring

theorem splitPreservesChain (beats : List Beat) (beatId : String) (s e now : ℕ)
    (hch : isChain beats = true) :
    isChain (handleSplitBeat beats beatId s e now) = true := by
  unfold handleSplitBeat
  split
  · exact hch
  · rename_i beatIndex hfind
    split
    · exact hch
    · rename_i originalBeat hget
      split
      · exact hch
      · rename_i hguard
        rw [not_or] at hguard
        obtain ⟨hguard1, hguard2⟩ := hguard
        have he : e ≤ originalBeat.textSegment.length := not_lt.mp hguard1
        have hse : s < e := not_le.mp hguard2
        obtain ⟨hlen, horig⟩ := List.getElem?_eq_some_iff.mp hget
        have hdecomp : beats =
            beats.take beatIndex ++ originalBeat :: beats.drop (beatIndex + 1) := by
          conv_lhs => rw [← List.take_append_drop beatIndex beats]
          rw [List.drop_eq_getElem_cons hlen, horig]
        rw [hdecomp] at hch
        rw [isChain_append] at hch
        obtain ⟨hchA, hchOB, hlinkA⟩ := hch
        obtain ⟨hod, hchB, hlinkOB⟩ := isChain_cons_elim hchOB
        obtain ⟨hcore, hcorehead, hcorelast⟩ := splitBeatCore_props originalBeat now hod hse he
        have hcne : splitBeatCore originalBeat s e now ≠ [] := by
          intro h0
          rw [h0] at hcorehead
          simp at hcorehead
        rw [List.append_assoc, isChain_append]
        refine ⟨hchA, ?_, ?_⟩
        · rw [isChain_append]
          refine ⟨hcore, hchB, ?_⟩
          intro a b ha hb
          have haend : a.endTime = originalBeat.endTime := by
            rw [ha, Option.map_some', Option.some.injEq] at hcorelast
            exact hcorelast
          rw [haend]
          exact hlinkOB b hb
        · intro a b ha hb
          cases hcoreeq : splitBeatCore originalBeat s e now with
          | nil => exact absurd hcoreeq hcne
          | cons c0 crest =>
            rw [hcoreeq, List.cons_append, List.head?_cons, Option.some.injEq] at hb
            have hbstart : b.startTime = originalBeat.startTime := by
              rw [hcoreeq, List.head?_cons, Option.map_some', Option.some.injEq] at hcorehead
              rw [← hb]
              exact hcorehead
            rw [hbstart]
            exact hlinkA a originalBeat ha rfl

theorem handleMergeBeats_eq_of (beats : List Beat) (ids : List String) (now : ℕ)
    {sel : List Beat} {first : Beat} {rest : List Beat}
    (hsel : beats.filter (fun b => ids.contains b.id) = sel)
    (hlen : ¬sel.length < 2)
    (hsort : sortByStartTime sel = first :: rest) :
    handleMergeBeats beats ids now =
      sortByStartTime ((beats.filter fun b => !ids.contains b.id) ++
        [mergedBeatOf now first rest]) := by
  unfold handleMergeBeats
  rw [hsel, if_neg hlen, hsort]

theorem mergePreservesChainOfContiguous (pre block post : List Beat) (ids : List String)
    (now : ℕ) (hch : isChain (pre ++ block ++ post) = true) (hlen2 : 2 ≤ block.length)
    (hfilter : (pre ++ block ++ post).filter (fun b => ids.contains b.id) = block) :
    isChain (handleMergeBeats (pre ++ block ++ post) ids now) = true := by
  cases block with
  | nil => simp at hlen2
  | cons b0 brest =>
    have hpw := isChain_strict_pairwise hch
    have hpwS : (pre ++ (b0 :: brest) ++ post).Pairwise
        (fun a b => a.startTime < b.startTime) := hpw.imp fun h => h.1
    obtain ⟨hpw12, hpwPost, hcross2⟩ := List.pairwise_append.mp hpwS
    obtain ⟨hpwPre, hpwBlockS, hcrossPB⟩ := List.pairwise_append.mp hpw12
    have hsubBlock : (b0 :: brest).Sublist (pre ++ (b0 :: brest) ++ post) :=
      (List.sublist_append_right pre (b0 :: brest)).trans
        (List.sublist_append_left (pre ++ (b0 :: brest)) post)
    have hpwBlockFull := List.Pairwise.sublist hsubBlock hpw
    have hsortBlock : sortByStartTime (b0 :: brest) = b0 :: brest :=
      sortByStartTime_eq_self (hpwBlockFull.imp fun h => h.1)
    -- every block element is selected, no pre/post element is
    have hp_block : ∀ a ∈ b0 :: brest, ids.contains a.id = true := by
      intro a ha
      exact List.of_mem_filter (p := fun b : Beat => ids.contains b.id) (hfilter.symm ▸ ha)
    have hnotpre : ∀ x ∈ pre, ids.contains x.id = false := by
      intro x hx
      cases hxc : ids.contains x.id with
      | false => rfl
      | true =>
        have hxin : x ∈ (pre ++ (b0 :: brest) ++ post).filter
            (fun b => ids.contains b.id) :=
          List.mem_filter.mpr
            ⟨List.mem_append_left post (List.mem_append_left (b0 :: brest) hx), hxc⟩
        rw [hfilter] at hxin
        exact absurd (hcrossPB x hx x hxin) (lt_irrefl _)
    have hnotpost : ∀ x ∈ post, ids.contains x.id = false := by
      intro x hx
      cases hxc : ids.contains x.id with
      | false => rfl
      | true =>
        have hxin : x ∈ (pre ++ (b0 :: brest) ++ post).filter
            (fun b => ids.contains b.id) :=
          List.mem_filter.mpr ⟨List.mem_append_right (pre ++ (b0 :: brest)) hx, hxc⟩
        rw [hfilter] at hxin
        exact absurd
          (hcross2 x (List.mem_append_right pre hxin) x hx) (lt_irrefl _)
    have hrem : (pre ++ (b0 :: brest) ++ post).filter (fun b => !ids.contains b.id) =
        pre ++ post := by
      rw [List.filter_append, List.filter_append]
      have h1 : pre.filter (fun b => !ids.contains b.id) = pre :=
        List.filter_eq_self.mpr fun a ha => by rw [hnotpre a ha]; rfl
      have h2 : (b0 :: brest).filter (fun b => !ids.contains b.id) = [] :=
        List.filter_eq_nil_iff.mpr fun a ha h => by
          rw [hp_block a ha] at h
          simp at h
      have h3 : post.filter (fun b => !ids.contains b.id) = post :=
        List.filter_eq_self.mpr fun a ha => by rw [hnotpost a ha]; rfl
      rw [h1, h2, h3, List.append_nil]
    have hlenb : ¬(b0 :: brest).length < 2 := by
      simp only [List.length_cons] at hlen2 ⊢
      omega
    rw [handleMergeBeats_eq_of (pre ++ (b0 :: brest) ++ post) ids now hfilter
      hlenb hsortBlock, hrem]
    -- decompose the original chain
    have hch2 := hch
    rw [List.append_assoc, isChain_append] at hch2
    obtain ⟨hchPre, hchBP, hlinkPre⟩ := hch2
    rw [isChain_append] at hchBP
    obtain ⟨hchBlock, hchPost, hlinkBP⟩ := hchBP
    have hmstart : (mergedBeatOf now b0 brest).startTime = b0.startTime := rfl
    have hmend : (mergedBeatOf now b0 brest).endTime =
        ((b0 :: brest).getLast (List.cons_ne_nil b0 brest)).endTime := rfl
    -- the sorted result is exactly pre ++ merged :: post
    have htargetPW : (pre ++ mergedBeatOf now b0 brest :: post).Pairwise
        (fun a b => a.startTime < b.startTime) := by
      rw [List.pairwise_append]
      refine ⟨hpwPre, ?_, ?_⟩
      · rw [List.pairwise_cons]
        refine ⟨?_, hpwPost⟩
        intro c hc
        rw [hmstart]
        exact hcross2 b0 (List.mem_append_right pre (List.mem_cons_self b0 brest)) c hc
      · intro a ha y hy
        rcases List.mem_cons.mp hy with hym | hyp
        · rw [hym, hmstart]
          exact hcrossPB a ha b0 (List.mem_cons_self b0 brest)
        · exact hcross2 a (List.mem_append_left (b0 :: brest) ha) y hyp
    have hperm : ((pre ++ post) ++ [mergedBeatOf now b0 brest]).Perm
        (pre ++ mergedBeatOf now b0 brest :: post) :=
      (List.perm_append_singleton _ (pre ++ post)).trans List.perm_middle.symm
    rw [sortByStartTime_eq_of_perm_strict hperm htargetPW]
    -- and it is a chain
    rw [isChain_append]
    refine ⟨hchPre, ?_, ?_⟩
    · apply isChain_cons
      · rw [hmstart, hmend]
        have hb0 : b0.startTime < b0.endTime := (isChain_cons_elim hchBlock).1
        have hle := le_getLast_end_of_pairwise (b0 :: brest) (List.cons_ne_nil b0 brest)
          (hpwBlockFull.imp fun h => h.2) b0 (List.mem_cons_self b0 brest)
        linarith
      · exact hchPost
      · intro c hc
        rw [hmend]
        exact hlinkBP ((b0 :: brest).getLast (List.cons_ne_nil b0 brest)) c
          (List.getLast?_eq_getLast _ _) hc
    · intro a b ha hb
      rw [List.head?_cons, Option.some.injEq] at hb
      rw [← hb, hmstart]
      exact hlinkPre a b0 ha (by rw [List.cons_append]; rfl)

/-- Counterexample to C2 as stated: `[exA, exB, exC]` is a valid
contiguous, non-overlapping, ordered beat list, but merging the
non-adjacent beats "a" and "c" yields a beat spanning seconds 0 to 3
that overlaps the untouched beat "b", so the resulting list is no
longer a valid partition. -/
theorem partition_invariant_counterexample :
    isChain [exA, exB, exC] = true ∧
      isChain (handleMergeBeats [exA, exB, exC] ["a", "c"] 0) = false := by
  constructor
  · norm_num +decide [isChain, exA, exB, exC]
  · norm_num +decide [handleMergeBeats, sortByStartTime, mergedBeatOf, jsDedup,
      List.insertionSort, List.orderedInsert, List.contains, isChain, exA, exB, exC,
      exSettings, List.intercalate, List.intersperse]

/-- C2 (amended): starting from a valid (contiguous, non-overlapping,
startTime-ascending) beat list, every split operation preserves
validity, and the children of a split form a valid sub-list that
exactly covers the original beat's interval in order; a merge
operation preserves validity provided the selected beats form a
contiguous block of the list (merging a non-contiguous selection can
break it). -/
theorem partition_invariant_amended :
    (∀ (beats : List Beat) (beatId : String) (s e now : ℕ), isChain beats = true →
      isChain (handleSplitBeat beats beatId s e now) = true) ∧
    (∀ (originalBeat : Beat) (s e now : ℕ),
      originalBeat.startTime < originalBeat.endTime → s < e →
      e ≤ originalBeat.textSegment.length →
      isChain (splitBeatCore originalBeat s e now) = true ∧
        (splitBeatCore originalBeat s e now).head?.map Beat.startTime =
          some originalBeat.startTime ∧
        (splitBeatCore originalBeat s e now).getLast?.map Beat.endTime =
          some originalBeat.endTime) ∧
    (∀ (pre block post : List Beat) (ids : List String) (now : ℕ),
      isChain (pre ++ block ++ post) = true → 2 ≤ block.length →
      (pre ++ block ++ post).filter (fun b => ids.contains b.id) = block →
      isChain (handleMergeBeats (pre ++ block ++ post) ids now) = true) :=
  ⟨splitPreservesChain,
    fun originalBeat s e now h1 h2 h3 => splitBeatCore_props originalBeat now h1 h2 h3,
    mergePreservesChainOfContiguous⟩

/-- Witness for C2: splitting the middle of the scenario list and
merging the adjacent block "b","c" both preserve validity. -/
theorem partition_invariant_amended_witness :
    (isChain [exA, exB, exC] = true ∧
      isChain (handleSplitBeat [exA, exB, exC] "b" 0 1 0) = true) ∧
    (2 ≤ ([exB, exC] : List Beat).length ∧
      ([exA] ++ [exB, exC] ++ ([] : List Beat)).filter
        (fun b => (["b", "c"] : List String).contains b.id) = [exB, exC] ∧
      isChain (handleMergeBeats ([exA] ++ [exB, exC] ++ []) ["b", "c"] 0) = true) :=
  ⟨⟨by norm_num +decide [isChain, exA, exB, exC],
      partition_invariant_amended.1 [exA, exB, exC] "b" 0 1 0
        (by norm_num +decide [isChain, exA, exB, exC])⟩,
    ⟨by norm_num,
      by norm_num +decide [List.contains, exA, exB, exC],
      partition_invariant_amended.2.2 [exA] [exB, exC] [] ["b", "c"] 0
        (by norm_num +decide [isChain, exA, exB, exC])
        (by norm_num)
        (by norm_num +decide [List.contains, exA, exB, exC])⟩⟩

/-- C3: for a valid beat list, merging at least two selected beats
produces a beat spanning from the minimum of the selected start times
to the maximum of the selected end times, and the result of
`handleMergeBeats` does not depend on the order of the supplied ids. -/
theorem merge_span_and_order (beats : List Beat) (ids1 ids2 : List String) (now : ℕ) :
    ((∀ x, x ∈ ids1 ↔ x ∈ ids2) →
      handleMergeBeats beats ids1 now = handleMergeBeats beats ids2 now) ∧
    (∀ (firstBeat : Beat) (rest : List Beat), isChain beats = true →
      sortByStartTime (beats.filter fun b => ids1.contains b.id) = firstBeat :: rest →
      (mergedBeatOf now firstBeat rest).startTime ∈
          (beats.filter fun b => ids1.contains b.id).map Beat.startTime ∧
        (∀ b ∈ beats.filter fun b => ids1.contains b.id,
          (mergedBeatOf now firstBeat rest).startTime ≤ b.startTime) ∧
        (mergedBeatOf now firstBeat rest).endTime ∈
          (beats.filter fun b => ids1.contains b.id).map Beat.endTime ∧
        (∀ b ∈ beats.filter fun b => ids1.contains b.id,
          b.endTime ≤ (mergedBeatOf now firstBeat rest).endTime)) := by
  constructor
  · intro hiff
    have hcont : ∀ s : String, ids1.contains s = ids2.contains s := by
      intro s
      rw [Bool.eq_iff_iff]
      constructor
      · intro h
        have : s ∈ ids1 := by simpa [List.contains] using h
        simpa [List.contains] using (hiff s).mp this
      · intro h
        have : s ∈ ids2 := by simpa [List.contains] using h
        simpa [List.contains] using (hiff s).mpr this
    have h1 : (fun b : Beat => ids1.contains b.id) = fun b : Beat => ids2.contains b.id :=
      funext fun b => hcont b.id
    have h2 : (fun b : Beat => !ids1.contains b.id) =
        fun b : Beat => !ids2.contains b.id :=
      funext fun b => by rw [hcont b.id]
    unfold handleMergeBeats
    rw [h1, h2]
  · intro first rest hch hsort
    have hsub : (beats.filter fun b => ids1.contains b.id).Sublist beats :=
      List.filter_sublist beats
    have hpw := List.Pairwise.sublist hsub (isChain_strict_pairwise hch)
    have hself : sortByStartTime (beats.filter fun b => ids1.contains b.id) =
        beats.filter fun b => ids1.contains b.id :=
      sortByStartTime_eq_self (hpw.imp fun h => h.1)
    rw [hself] at hsort
    rw [hsort] at hpw ⊢
    have hmstart : (mergedBeatOf now first rest).startTime = first.startTime := rfl
    have hmend : (mergedBeatOf now first rest).endTime =
        ((first :: rest).getLast (List.cons_ne_nil first rest)).endTime := rfl
    refine ⟨?_, ?_, ?_, ?_⟩
    · rw [hmstart]
      exact List.mem_map_of_mem Beat.startTime (List.mem_cons_self first rest)
    · intro b hb
      rw [hmstart]
      rcases List.mem_cons.mp hb with hbf | hbr
      · rw [hbf]
      · exact le_of_lt ((List.pairwise_cons.mp hpw).1 b hbr).1
    · rw [hmend]
      exact List.mem_map_of_mem Beat.endTime (List.getLast_mem (List.cons_ne_nil first rest))
    · intro b hb
      rw [hmend]
      exact le_getLast_end_of_pairwise (first :: rest) (List.cons_ne_nil first rest)
        (hpw.imp fun h => h.2) b hb

/-- Witness for C3: merging "c","a" (in either order) on the valid
example list spans seconds 0 to 3. -/
theorem merge_span_and_order_witness :
    ((∀ x, x ∈ (["c", "a"] : List String) ↔ x ∈ (["a", "c"] : List String)) ∧
      handleMergeBeats [exA, exB, exC] ["c", "a"] 0 =
        handleMergeBeats [exA, exB, exC] ["a", "c"] 0) ∧
    (isChain [exA, exB, exC] = true ∧
      sortByStartTime ([exA, exB, exC].filter
        fun b => (["c", "a"] : List String).contains b.id) = exA :: [exC] ∧
      (mergedBeatOf 0 exA [exC]).startTime ∈
        ([exA, exB, exC].filter fun b =>
          (["c", "a"] : List String).contains b.id).map Beat.startTime ∧
      (mergedBeatOf 0 exA [exC]).endTime ∈
        ([exA, exB, exC].filter fun b =>
          (["c", "a"] : List String).contains b.id).map Beat.endTime) :=
  ⟨⟨by intro x; constructor <;> (intro h; simp at h ⊢; tauto),
      (merge_span_and_order [exA, exB, exC] ["c", "a"] ["a", "c"] 0).1
        (by intro x; constructor <;> (intro h; simp at h ⊢; tauto))⟩,
    ⟨by norm_num +decide [isChain, exA, exB, exC],
      by norm_num +decide [sortByStartTime, List.insertionSort, List.orderedInsert,
        List.contains, exA, exB, exC],
      ((merge_span_and_order [exA, exB, exC] ["c", "a"] ["a", "c"] 0).2 exA [exC]
        (by norm_num +decide [isChain, exA, exB, exC])
        (by norm_num +decide [sortByStartTime, List.insertionSort, List.orderedInsert,
          List.contains, exA, exB, exC])).1,
      ((merge_span_and_order [exA, exB, exC] ["c", "a"] ["a", "c"] 0).2 exA [exC]
        (by norm_num +decide [isChain, exA, exB, exC])
        (by norm_num +decide [sortByStartTime, List.insertionSort, List.orderedInsert,
          List.contains, exA, exB, exC])).2.2.1⟩⟩

end RemixerBeats
